import Mathlib

/-
  Verification of the pattern-based filesystem search engine implemented in
  linux/fs/read_write.c (sys_search and its helpers).

  Shallow embedding conventions:
  * C strings are `List Char`; the terminating NUL is represented by the end
    of the list (C strings cannot contain NUL bytes).
  * Error codes are negative `Int` values, exactly as in the kernel
    (ENOENT = -2, EPERM = -1, EACCES = -13, ENODEV = -19, ENOTDIR = -20,
    ERANGE = -34).
  * The matcher recursion counter `n` of __match_pathname is bounded by 8.
    We embed the function with an explicit fuel argument equal to `8 - n`:
    fuel 0 corresponds to the C check `if (n >= 8) return SEARCH_MATCH_OVERFLOW`,
    and every recursive call that increments `n` in C decrements the fuel.
    This is a faithful change of variable that makes the definition
    structurally recursive.
  * Likewise search_directory's tree-depth counter `n` is bounded by
    TREE_DEPTH = 16 and is embedded as fuel `16 - n`; fuel 0 corresponds to
    `if (n >= TREE_DEPTH) return 0`.
  * External collaborators (filp_open, vfs_readdir, vfs_path_lookup,
    vfs_getattr, d_absolute_path, copy_to_user, the f_op->search hook) are
    modelled through the filesystem value `FSEnt`: each directory carries the
    outcome of opening it (`openErr`) and, optionally, the result of its
    native search hook (`native` = returned code and bytes the provider wrote).
    vfs_path_lookup / vfs_getattr / copy_to_user are modelled as succeeding;
    the stat metadata text (a comma separated number list in C) is an abstract
    argument of the result encoder and is passed as [] by the driver code here,
    since no property below depends on its contents.
-/

set_option maxHeartbeats 1000000

namespace LinuxSearch

/-- enum search_matched from fs/read_write.c. -/
inductive SearchMatched where
  | failure
  | partialMatch
  | success
  | overflow
deriving DecidableEq

/-- The C helper is_filename(c), i.e. (c) != '/' && (c) != NUL.
    The NUL case corresponds to the end of the list in this embedding. -/
def is_filename (c : Char) : Bool := c ≠ '/' && c ≠ Char.ofNat 0

/-- The do/while loop of the '*' case of __match_pathname: attempt the match
    at the current position, and on SEARCH_MATCH_FAILURE advance the path one
    character, stopping as soon as the character just consumed is a separator
    or the terminating NUL (end of list). `attempt` stands for the call
    __match_pathname(n+1, pathname, pattern+1, flags). -/
def starLp (attempt : List Char → SearchMatched) : List Char → SearchMatched
  | [] =>
    let r := attempt []
    if r ≠ .failure then r else .failure
  | p :: rest =>
    let r := attempt (p :: rest)
    if r ≠ .failure then r
    else if is_filename p then starLp attempt rest else .failure

/-- The switch statement body of __match_pathname, one fuel level.
    `deeper` stands for __match_pathname at recursion count n+1. -/
def matchPat (deeper : List Char → List Char → SearchMatched) :
    List Char → List Char → SearchMatched
  | pathname, [] => if pathname = [] then .success else .failure
  | pathname, c :: ps =>
    if c = '*' then
      starLp (fun pn => deeper pn ps) pathname
    else if c = '?' then
      match pathname with
      | p :: rest =>
        if is_filename p then
          let r := deeper rest ps
          if r ≠ .failure then r else matchPat deeper (p :: rest) ps
        else matchPat deeper (p :: rest) ps
      | [] => matchPat deeper [] ps
    else if c = '[' then .failure
    else if c = '|' ∧ pathname = [] then .success
    else if c = '/' ∧ pathname = [] then .partialMatch
    else
      match pathname with
      | [] => .failure
      | p :: rest => if p = c then matchPat deeper rest ps else .failure

/-- Embedding of __match_pathname with the recursion counter replaced by
    fuel = 8 - n.
    matchFuel 0 _ _ = overflow is the C check `if (n >= 8) return OVERFLOW`. -/
def matchFuel : Nat → List Char → List Char → SearchMatched
  | 0, _, _ => .overflow
  | k+1, pathname, pattern => matchPat (matchFuel k) pathname pattern

/-- static enum search_matched __match_pathname(int n, const char *pathname,
    const char *pattern, int flags).  The unused `flags` argument is dropped. -/
def __match_pathname (n : Nat) (pathname pattern : List Char) : SearchMatched :=
  matchFuel (8 - n) pathname pattern

/-- All suffixes of `l` that start at a '/' character, in order: the successive
    values of `path = strchr(path+1, '/')` in match_pathname. -/
def moreSuffixes : List Char → List (List Char)
  | [] => []
  | c :: rest => if c = '/' then (c :: rest) :: moreSuffixes rest else moreSuffixes rest

/-- The sequence of `path` values of the outer loop of match_pathname:
    the whole pathname first, then every suffix starting at a '/'
    found from position 1 onwards. -/
def pathSuffixes (p : List Char) : List (List Char) :=
  p :: (match p with
        | [] => []
        | _ :: rest => moreSuffixes rest)

/-- The successive values of `patt = strchrskip(patt+1, '|')`: after emitting
    a suffix that begins right after a '|', the next search starts one
    character later. -/
def moreAlts : List Char → List (List Char)
  | [] => []
  | c :: rest =>
    if c = '|' then
      rest :: (match rest with
               | [] => []
               | _ :: r2 => moreAlts r2)
    else moreAlts rest

/-- The sequence of `patt` values of the inner loop of match_pathname:
    the whole pattern, then each suffix following a '|' found from
    position 1 of the previous alternative onwards. -/
def altSuffixes (p : List Char) : List (List Char) :=
  p :: (match p with
        | [] => []
        | _ :: rest => moreAlts rest)

/-- First result different from SEARCH_MATCH_FAILURE, else failure:
    the short-circuit accumulation of `status` in match_pathname. -/
def firstNonFail : List SearchMatched → SearchMatched
  | [] => .failure
  | r :: rs => if r = .failure then firstNonFail rs else r

/-- One (path suffix, pattern alternative) trial of match_pathname:
    if (*patt == '/') __match_pathname(0, path, patt, flags)
    else __match_pathname(0, path+1, patt, flags). -/
def tryAlt (path alt : List Char) : SearchMatched :=
  if alt.head? = some '/' then __match_pathname 0 path alt
  else __match_pathname 0 (path.drop 1) alt

/-- static enum search_matched match_pathname(const char *pathname,
    const char *pattern, int flags): try every alternative at every
    '/'-delimited suffix of the candidate, returning the first
    non-failure outcome. -/
def match_pathname (pathname pattern : List Char) : SearchMatched :=
  firstNonFail (((pathSuffixes pathname).map
    (fun s => (altSuffixes pattern).map (fun a => tryAlt s a))).flatten)

/-- static int ispattern(const char *pattern): true when the pattern does not
    start with '/' or contains one of '*', '?', '|'. -/
def ispattern (pattern : List Char) : Bool :=
  match pattern with
  | [] => true
  | c :: _ =>
    if c ≠ '/' then true
    else pattern.any (fun x => x = '*' ∨ x = '?' ∨ x = '|')

/-- static int isrecursive(const char *pattern): true when some
    '|'-separated alternative does not start with '/'. -/
def isrecursive (pattern : List Char) : Bool :=
  (altSuffixes pattern).any (fun a => a.head? ≠ some '/')

/-! ### Result encoder (copy_search_result) and output buffer -/

/-- The NUL terminator byte. -/
def NULC : Char := Char.ofNat 0

/-- Overwrite `data.length` bytes of `buf` starting at offset `off`
    (the effect of copy_to_user into the caller's buffer). -/
def writeAt (buf : List Char) (off : Nat) (data : List Char) : List Char :=
  buf.take off ++ data ++ buf.drop (off + data.length)

/-- The sprintf in copy_search_result: "0|%s|%s|" where the middle field is
    the metadata text (empty when SEARCH_METADATA is unset; a comma separated
    list of stat numbers otherwise, kept abstract here). -/
def encodeRecord (path meta : List Char) : List Char :=
  '0' :: '|' :: (path ++ '|' :: (meta ++ ['|']))

/-- Result of copy_search_result: error (if any) plus the updated user
    buffer, write offset (`*buf`) and remaining capacity (`*len`). -/
structure CopyRes where
  err : Option Int
  buf : List Char
  off : Nat
  len : Nat
deriving DecidableEq

/-- static int copy_search_result(...): format the record, append a double
    NUL terminator, and copy it out only if record+2 fits in the remaining
    capacity; on success advance the cursor by the record length only
    ("NUL does not delimit ..., don't include +2"), otherwise return -ERANGE
    having written nothing. -/
def copy_search_result (path meta : List Char) (buf : List Char) (off len : Nat) :
    CopyRes :=
  let r := encodeRecord path meta
  if r.length + 2 ≤ len then
    ⟨none, writeAt buf off (r ++ [NULC, NULC]), off + r.length, len - r.length⟩
  else
    ⟨some (-34), buf, off, len⟩

/-- A sequence of successful copy_search_result calls starting from a given
    buffer state (the record emissions performed during one search call,
    with empty metadata fields). -/
def emitRecords : List (List Char) → List Char → Nat → Nat → CopyRes
  | [], buf, off, len => ⟨none, buf, off, len⟩
  | p :: ps, buf, off, len =>
    let c := copy_search_result p [] buf off len
    match c.err with
    | some e => ⟨some e, c.buf, c.off, c.len⟩
    | none => emitRecords ps c.buf c.off c.len

/-- The emissions of one search call followed by the final fix-up of
    SYSCALL_DEFINE5(search): if anything was written, overwrite the byte
    before the cursor (the trailing '|') and the byte at the cursor with
    NUL NUL. -/
def sessionEmit (paths : List (List Char)) (buf : List Char) (len : Nat) : List Char :=
  let c := emitRecords paths buf 0 len
  match c.err with
  | some _ => c.buf
  | none => if c.off ≠ 0 then writeAt c.buf (c.off - 1) [NULC, NULC] else c.buf

/-! ### Filesystem model and the tree walker (search_directory) -/

/-- A filesystem entry as seen by the walker.  A directory carries the result
    of filp_open on its path (`openErr`: none = opens fine, some e = open
    fails with error e), the optional native f_op->search hook modelled by
    the code it returns and the bytes it writes (`native`), and its listed
    entries in vfs_readdir order (which include "." and ".." only if the
    model value lists them). -/
inductive FSEnt where
  | file (name : List Char)
  | dir (name : List Char) (openErr : Option Int)
        (native : Option (Int × List Char)) (children : List FSEnt)

def FSEnt.name : FSEnt → List Char
  | .file n => n
  | .dir n _ _ _ => n

/-- The d_type tag stored by search_filldir: 'd' for DT_DIR, 'o' for other. -/
def FSEnt.dtype : FSEnt → Char
  | .file _ => 'o'
  | .dir _ _ _ _ => 'd'

def FSEnt.openErrOf : FSEnt → Option Int
  | .file _ => none
  | .dir _ e _ _ => e

/-- The flag bits consulted by the search logic. -/
structure SearchFlags where
  stopAtFirst : Bool
  metadata : Bool
  includeRoot : Bool
deriving DecidableEq

/-- Per-call constants of struct dir_search used by the walker. -/
structure WConfig where
  pattern : List Char
  flags : SearchFlags
  isrec : Bool
deriving DecidableEq

/-- The mutable per-call state threaded through the walk: ds->results,
    ds->path, ds->base, the user buffer with ds->next (as offset) and
    ds->len, plus counters of successful filp_open and filp_close calls
    (to track directory-handle balance). -/
structure WState where
  results : Int
  path : List Char
  base : Nat
  buf : List Char
  off : Nat
  len : Nat
  opens : Nat
  closes : Nat
deriving DecidableEq

/-- The recoverable open errors of search_directory:
    -ENOENT, -EPERM, -EACCES, -ENODEV. -/
def recoverable_open_error (e : Int) : Bool :=
  e = -2 ∨ e = -1 ∨ e = -13 ∨ e = -19

/-- The recursion condition of search_directory (fs/read_write.c line 1390):
    type == 'd' && entry != "." && entry != ".." &&
    (how == SEARCH_MATCH_PARTIAL || ds->isrecursive). -/
def shouldRecurse (e : FSEnt) (how : SearchMatched) (isrec : Bool) : Bool :=
  decide (FSEnt.dtype e = 'd' ∧ FSEnt.name e ≠ ['.'] ∧ FSEnt.name e ≠ ['.', '.'] ∧
          (how = .partialMatch ∨ isrec = true))

/-- The SEARCH_MATCH_SUCCESS block of the entry loop: on SUCCESS look the
    entry up, stat it (both modelled as succeeding), emit it via
    copy_search_result (ds->path with SEARCH_INCLUDEROOT, the bare entry name
    otherwise) and bump ds->results; on any other outcome do nothing. -/
def matchEmit (cfg : WConfig) (e : FSEnt) (how : SearchMatched) (stp : WState) :
    Int × WState :=
  if how = .success then
    let c := copy_search_result
      (if cfg.flags.includeRoot then stp.path else FSEnt.name e) []
      stp.buf stp.off stp.len
    match c.err with
    | some err => (err, { stp with buf := c.buf, off := c.off, len := c.len })
    | none =>
      (0, { stp with buf := c.buf, off := c.off, len := c.len,
                     results := stp.results + 1 })
  else (0, stp)

/-- The per-entry loop of search_directory (the body between vfs_readdir and
    the final close).  `recurse` stands for search_directory at depth n+1.
    For each entry: append '/'+name to the path; classify with match_pathname
    against path+base; run the SUCCESS block (matchEmit), aborting on its
    error and stopping the whole walk if it emitted under SEARCH_STOPATFIRST;
    recurse when the line-1390 condition holds, aborting on error and
    stopping if a result was found under SEARCH_STOPATFIRST; then truncate
    the path for the next sibling. -/
def walkEntriesF (cfg : WConfig) (recurse : FSEnt → WState → Int × WState) :
    List FSEnt → WState → Int × WState
  | [], st => (0, st)
  | e :: rest, st =>
    let save := st.path
    let stp : WState := { st with path := st.path ++ '/' :: FSEnt.name e }
    let how := match_pathname (stp.path.drop stp.base) cfg.pattern
    let am := matchEmit cfg e how stp
    if am.1 ≠ 0 then am
    else if how = .success ∧ cfg.flags.stopAtFirst = true then am
    else if shouldRecurse e how cfg.isrec then
      let r := recurse e am.2
      if r.1 ≠ 0 then r
      else if 0 < r.2.results ∧ cfg.flags.stopAtFirst = true then (0, r.2)
      else walkEntriesF cfg recurse rest { r.2 with path := save }
    else walkEntriesF cfg recurse rest { am.2 with path := save }

/-- abspath (modelled as the identity: model paths are canonical) followed by
    `if (ds->base == 0) ds->base = strlen(ds->path)`. -/
def baseFix (st : WState) : WState :=
  if st.base = 0 then { st with base := st.path.length } else st

/-- The native-delegation block of search_directory: adopt the driver code
    verbatim (ds->results += code; ds->next += code; the provider itself
    wrote into the remaining buffer); on a negative code return it at once
    — the C `goto out` that skips the filp_close — otherwise ds->len -= code
    and fall through to the close. -/
def nativeStep (dcode : Int) (dwrote : List Char) (st2 : WState) : Int × WState :=
  let st3 : WState := { st2 with
    results := st2.results + dcode,
    buf := writeAt st2.buf st2.off dwrote,
    off := st2.off + dcode.toNat }
  if dcode < 0 then (dcode, st3)
  else
    (0, { st3 with len := st3.len - dcode.toNat, closes := st3.closes + 1 })

/-- static int search_directory(struct dir_search *ds, int n), with the tree
    depth counter replaced by fuel = 16 - n; fuel 0 is the C check
    `if (n >= TREE_DEPTH) return 0`.  Steps: open the directory (recoverable
    errors -ENOENT, -EPERM, -EACCES, -ENODEV skip the branch with status 0, other
    errors abort; opening a non-directory yields -ENOTDIR = -20); fix up the
    base (baseFix) after a successful open; then either delegate to the native
    hook (nativeStep) or list entries, run the entry loop, and close. -/
def search_directory_fuel (cfg : WConfig) : Nat → FSEnt → WState → Int × WState
  | 0, _, st => (0, st)
  | k+1, ent, st =>
    match ent with
    | .file _ => (-20, st)
    | .dir _ openErr native children =>
      match openErr with
      | some e => if recoverable_open_error e then (0, st) else (e, st)
      | none =>
        let st2 := baseFix { st with opens := st.opens + 1 }
        match native with
        | some (dcode, dwrote) => nativeStep dcode dwrote st2
        | none =>
          let r := walkEntriesF cfg (search_directory_fuel cfg k) children st2
          (r.1, { r.2 with closes := r.2.closes + 1 })

/-- search_directory at tree depth n. -/
def search_directory (cfg : WConfig) (ent : FSEnt) (n : Nat) (st : WState) :
    Int × WState :=
  search_directory_fuel cfg (16 - n) ent st

/-! ### Orchestrator: SYSCALL_DEFINE5(search) -/

/-- The leading-slash stripping of the non-pattern branch:
    while (*ds->pattern == '/') ds->pattern += 1. -/
def stripSlashes : List Char → List Char
  | [] => []
  | c :: rest => if c = '/' then stripSlashes rest else c :: rest

/-- Split a path into its '/'-separated components (how vfs_path_lookup
    resolves a multi-component relative name). -/
def splitSlash : List Char → List (List Char)
  | [] => [[]]
  | c :: rest =>
    if c = '/' then [] :: splitSlash rest
    else
      match splitSlash rest with
      | [] => [[c]]
      | s :: ss => (c :: s) :: ss

def findChild (children : List FSEnt) (nm : List Char) : Option FSEnt :=
  children.find? (fun e => FSEnt.name e = nm)

/-- Resolution of a relative component path inside a tree (the collaborator
    vfs_path_lookup of the literal shortcut).  Resolution that runs off the
    tree is reported as not-found. -/
def lookupPath (e : FSEnt) : List (List Char) → Option FSEnt
  | [] => some e
  | c :: cs =>
    match e with
    | .file _ => none
    | .dir _ _ _ children =>
      match findChild children c with
      | none => none
      | some e2 => lookupPath e2 cs

/-- The literal-shortcut body for one root (the else branch of the per-root
    loop): resolve the root (kern_path; -ENOENT skips to the next root, other
    errors abort); record ds->base and append '/'+pattern to the path;
    resolve the pattern relative to the root (not-found skips to the next
    root); stat (modelled as succeeding) and emit (ds->path with
    SEARCH_INCLUDEROOT, ds->path+ds->base otherwise); bump the count and
    break under SEARCH_STOPATFIRST.  `Sum.inl out` makes the whole per-root
    loop return `out` now (an abort, or the SEARCH_STOPATFIRST break with
    status 0); `Sum.inr st2` continues with the next root. -/
def literalRoot (cfg : WConfig) (r : FSEnt) (st1 : WState) :
    (Int × WState) ⊕ WState :=
  match FSEnt.openErrOf r with
  | some e => if e = -2 then .inr st1 else .inl (e, st1)
  | none =>
    let st2 : WState :=
      { st1 with base := st1.path.length, path := st1.path ++ '/' :: cfg.pattern }
    match lookupPath r (splitSlash cfg.pattern) with
    | none => .inr st2
    | some _ =>
      let c := copy_search_result
        (if cfg.flags.includeRoot then st2.path else st2.path.drop st2.base) []
        st2.buf st2.off st2.len
      match c.err with
      | some err => .inl (err, { st2 with buf := c.buf, off := c.off, len := c.len })
      | none =>
        let st3 : WState := { st2 with buf := c.buf, off := c.off, len := c.len,
                                       results := st2.results + 1 }
        if cfg.flags.stopAtFirst = true then .inl (0, st3) else .inr st3

/-- The per-root loop of SYSCALL_DEFINE5(search).  Each root of the
    '|'-separated `paths` argument is modelled by the FSEnt it resolves to,
    whose `name` is its canonical path.  For a true pattern: reset ds->base,
    run the walker at depth 0, abort on error, stop after a hit under
    SEARCH_STOPATFIRST.  Otherwise run the literal shortcut (literalRoot). -/
def search_roots (cfg : WConfig) (ispat : Bool) : List FSEnt → WState → Int × WState
  | [], st => (0, st)
  | r :: rest, st =>
    let st1 : WState := { st with path := FSEnt.name r }
    if ispat then
      let st2 : WState := { st1 with base := 0 }
      let w := search_directory cfg r 0 st2
      if w.1 ≠ 0 then w
      else if 0 < w.2.results ∧ cfg.flags.stopAtFirst = true then (0, w.2)
      else search_roots cfg ispat rest w.2
    else
      match literalRoot cfg r st1 with
      | .inl out => out
      | .inr st2 => search_roots cfg ispat rest st2

/-- The per-call constants of struct dir_search: the pattern (with leading
    slashes stripped in the literal-shortcut case), the flags, and
    isrecursive of the original pattern. -/
def sysCfg (patternArg : List Char) (flags : SearchFlags) : WConfig :=
  { pattern := if ispattern patternArg then patternArg else stripSlashes patternArg,
    flags := flags, isrec := isrecursive patternArg }

/-- The initial per-call state: no results, empty path, base 0, the user
    buffer with its full capacity, no opens or closes yet. -/
def sysSt0 (len : Nat) (buf0 : List Char) : WState :=
  { results := 0, path := [], base := 0, buf := buf0,
    off := 0, len := len, opens := 0, closes := 0 }

/-- The syscall SYSCALL_DEFINE5(search, paths, pattern, flags, buf, len).
    The '|'-split
    root paths are given as the trees they resolve to; `buf0` is the initial
    contents of the user buffer of capacity `len`.  Computes ispattern and
    isrecursive, strips leading slashes from a non-pattern, runs the per-root
    loop, and on success replaces the byte before the cursor (the trailing
    '|') and the byte at the cursor by NUL NUL before returning ds->results.
    Returns the status and the final user buffer. -/
def sys_search (roots : List FSEnt) (patternArg : List Char) (flags : SearchFlags)
    (len : Nat) (buf0 : List Char) : Int × List Char :=
  let r := search_roots (sysCfg patternArg flags) (ispattern patternArg) roots
            (sysSt0 len buf0)
  if r.1 ≠ 0 then (r.1, r.2.buf)
  else
    let stF : WState :=
      if r.2.off ≠ 0 then { r.2 with buf := writeAt r.2.buf (r.2.off - 1) [NULC, NULC] }
      else r.2
    (stF.results, stF.buf)

/-! ### Well-formedness predicates on model filesystems -/

mutual
/-- Every open error in the tree is a negative errno and every native search
    hook returns a count of at most 1 (the conforming-provider contract when
    SEARCH_STOPATFIRST is passed down). -/
def entSafe : FSEnt → Bool
  | .file _ => true
  | .dir _ openErr native children =>
    (match openErr with | none => true | some e => decide (e < 0)) &&
    (match native with | none => true | some (c, _) => decide (c ≤ 1)) &&
    entsSafe children

def entsSafe : List FSEnt → Bool
  | [] => true
  | e :: rest => entSafe e && entsSafe rest
end

mutual
/-- No directory in the tree exposes a native search hook. -/
def noNative : FSEnt → Bool
  | .file _ => true
  | .dir _ _ native children =>
    (match native with | none => true | some _ => false) && noNativeL children

def noNativeL : List FSEnt → Bool
  | [] => true
  | e :: rest => noNative e && noNativeL rest
end

/-- The path positions at which the '*' loop of __match_pathname attempts the
    rest of the pattern: the current position first, then the position after
    each consumed character as long as the consumed character is a filename
    character (not a separator, not the terminating NUL). -/
def starAttempts : List Char → List (List Char)
  | [] => [([] : List Char)]
  | c :: rest => (c :: rest) :: (if is_filename c then starAttempts rest else [])

/-- The concatenation of the encoded records (with empty metadata fields)
    for a list of emitted paths. -/
def recsFlat (ps : List (List Char)) : List Char :=
  (ps.map (fun p => encodeRecord p [])).flatten

/-- No flag bits set. -/
def noFlags : SearchFlags := ⟨false, false, false⟩

/-- Only SEARCH_STOPATFIRST set. -/
def stopFirst : SearchFlags := ⟨true, false, false⟩

/-! ## Lemmas about the segment matcher -/

theorem starLp_eq (attempt : List Char → SearchMatched) :
    ∀ pathname, starLp attempt pathname
      = firstNonFail ((starAttempts pathname).map attempt) := by
  intro pathname
  induction pathname with
  | nil =>
    cases h : attempt [] <;> simp [starLp, starAttempts, firstNonFail, h]
  | cons c rest ih =>
    cases h : attempt (c :: rest) <;> cases hf : is_filename c <;>
      simp [starLp, starAttempts, firstNonFail, h, hf, ih]

theorem starAttempts_split :
    ∀ pathname s, s ∈ starAttempts pathname →
      ∃ pre, pathname = pre ++ s ∧ ∀ c ∈ pre, is_filename c = true := by
  intro pathname
  induction pathname with
  | nil =>
    intro s hs
    simp [starAttempts] at hs
    exact ⟨[], by simp [hs]⟩
  | cons c rest ih =>
    intro s hs
    by_cases hf : is_filename c
    · simp [starAttempts, hf] at hs
      rcases hs with h | h
      · exact ⟨[], by simp [h]⟩
      · obtain ⟨pre, hpre, hall⟩ := ih s h
        refine ⟨c :: pre, by simp [hpre], ?_⟩
        intro x hx
        rcases List.mem_cons.mp hx with rfl | hx
        · exact hf
        · exact hall x hx
    · simp [starAttempts, hf] at hs
      exact ⟨[], by simp [hs]⟩

theorem starLp_head (attempt : List Char → SearchMatched) (pathname : List Char)
    (h : attempt pathname ≠ .failure) : starLp attempt pathname = attempt pathname := by
  cases pathname <;> simp [starLp, h]

/-- Unfolding of the '*' case of __match_pathname below the recursion bound:
    the first non-failure outcome over the star attempts, each attempt being
    the rest of the pattern at recursion count n+1. -/
theorem match_star_eq (n : Nat) (pathname ps : List Char) (h : n < 8) :
    __match_pathname n pathname ('*' :: ps)
      = firstNonFail ((starAttempts pathname).map
          (fun s => __match_pathname (n+1) s ps)) := by
  have hk : 8 - n = (7 - n) + 1 := by omega
  have hk2 : 8 - (n + 1) = 7 - n := by omega
  unfold __match_pathname
  rw [hk, hk2]
  show matchPat (matchFuel (7 - n)) pathname ('*' :: ps) = _
  simp only [matchPat, if_true]
  exact starLp_eq _ pathname

theorem matchFuel_zero (pathname pattern : List Char) :
    matchFuel 0 pathname pattern = .overflow := rfl

/-- At or above the recursion bound the matcher returns OVERFLOW at once. -/
theorem match_overflow_at_bound (n : Nat) (pathname pattern : List Char)
    (h : 8 ≤ n) : __match_pathname n pathname pattern = .overflow := by
  unfold __match_pathname
  rw [Nat.sub_eq_zero_of_le h]
  exact matchFuel_zero _ _

theorem matchFuel_replicate_star :
    ∀ k M pathname, k ≤ M → matchFuel k pathname (List.replicate M '*') = .overflow := by
  intro k
  induction k with
  | zero => intro M pathname _; rfl
  | succ k ih =>
    intro M pathname hM
    obtain ⟨M2, rfl⟩ : ∃ M2, M = M2 + 1 := ⟨M - 1, by omega⟩
    have h1 : matchFuel k pathname (List.replicate M2 '*') = .overflow :=
      ih M2 pathname (by omega)
    show matchPat (matchFuel k) pathname (List.replicate (M2 + 1) '*') = .overflow
    rw [List.replicate_succ]
    simp only [matchPat, if_true]
    rw [starLp_head _ _ (by simp [ih M2 _ (by omega)])]
    exact ih M2 pathname (by omega)

theorem firstNonFail_mem :
    ∀ l : List SearchMatched, firstNonFail l ≠ .failure → firstNonFail l ∈ l := by
  intro l
  induction l with
  | nil => intro h; simp [firstNonFail] at h
  | cons r rs ih =>
    intro h
    by_cases hr : r = .failure
    · rw [firstNonFail, if_pos hr] at h ⊢
      exact List.mem_cons_of_mem _ (ih h)
    · rw [firstNonFail, if_neg hr]
      exact List.mem_cons_self _ _

theorem moreAlts_nil : ∀ l : List Char, '|' ∉ l → moreAlts l = [] := by
  intro l
  induction l with
  | nil => intro _; rfl
  | cons c rest ih =>
    intro h
    have hc : ¬ c = '|' := fun hc => h (by simp [hc])
    cases rest with
    | nil =>
      show (if c = '|' then [([] : List Char)] else moreAlts []) = []
      rw [if_neg hc]
      rfl
    | cons c2 r2 =>
      show (if c = '|' then (c2 :: r2) :: moreAlts r2 else moreAlts (c2 :: r2)) = []
      rw [if_neg hc]
      exact ih (fun hm => h (List.mem_cons_of_mem _ hm))

theorem altSuffixes_noBar (p : List Char) (h : '|' ∉ p) : altSuffixes p = [p] := by
  cases p with
  | nil => rfl
  | cons c rest =>
    rw [altSuffixes]
    rw [moreAlts_nil rest (fun hm => h (List.mem_cons_of_mem _ hm))]

/-- Encountering '[' makes the segment matcher fail at once (below the
    recursion bound). -/
theorem match_bracket_failure (n : Nat) (pathname ps : List Char) (h : n < 8) :
    __match_pathname n pathname ('[' :: ps) = .failure := by
  have hk : 8 - n = (7 - n) + 1 := by omega
  unfold __match_pathname
  rw [hk]
  show matchPat (matchFuel (7 - n)) pathname ('[' :: ps) = .failure
  simp [matchPat]

/-- A '|'-free pattern containing '[' can never produce SUCCESS from the
    segment matcher: the only sources of SUCCESS are an exhausted pattern
    (impossible while '[' is still ahead) and a '|' with exhausted path
    (excluded), and reaching the '[' itself fails. -/
theorem matchFuel_bracket_ne_success :
    ∀ k patt pathname, '|' ∉ patt → '[' ∈ patt →
      matchFuel k pathname patt ≠ .success := by
  intro k
  induction k with
  | zero => intro patt pathname _ _; simp [matchFuel]
  | succ k ihk =>
    intro patt
    induction patt with
    | nil => intro pathname _ hbr; simp at hbr
    | cons c ps ihp =>
      intro pathname hbar hbr
      have hbar2 : '|' ∉ ps := fun h => hbar (List.mem_cons_of_mem _ h)
      have hcbar : ¬ c = '|' := fun h => hbar (by simp [h])
      show matchPat (matchFuel k) pathname (c :: ps) ≠ .success
      by_cases hstar : c = '*'
      · have hbr2 : '[' ∈ ps := by
          rcases List.mem_cons.mp hbr with h | h
          · exact absurd (h.trans hstar) (by decide)
          · exact h
        subst hstar
        simp only [matchPat, if_true]
        rw [starLp_eq]
        intro hsucc
        have hmem := firstNonFail_mem _ (by rw [hsucc]; simp)
        rw [hsucc] at hmem
        obtain ⟨s, _, hs⟩ := List.mem_map.mp hmem
        exact ihk ps s hbar2 hbr2 hs
      · by_cases hq : c = '?'
        · have hbr2 : '[' ∈ ps := by
            rcases List.mem_cons.mp hbr with h | h
            · exact absurd (h.trans hq) (by decide)
            · exact h
          subst hq
          cases pathname with
          | nil => exact ihp [] hbar2 hbr2
          | cons p rest =>
            show (if is_filename p = true then
                    (if matchFuel k rest ps ≠ .failure then matchFuel k rest ps
                     else matchPat (matchFuel k) (p :: rest) ps)
                  else matchPat (matchFuel k) (p :: rest) ps) ≠ .success
            by_cases hf : is_filename p = true
            · rw [if_pos hf]
              by_cases hfail : matchFuel k rest ps = .failure
              · rw [if_neg (by simp [hfail])]
                exact ihp (p :: rest) hbar2 hbr2
              · rw [if_pos hfail]
                exact ihk ps rest hbar2 hbr2
            · rw [if_neg hf]
              exact ihp (p :: rest) hbar2 hbr2
        · by_cases hbk : c = '['
          · subst hbk; simp [matchPat]
          · have hbr2 : '[' ∈ ps := by
              rcases List.mem_cons.mp hbr with h | h
              · exact absurd h.symm hbk
              · exact h
            cases pathname with
            | nil =>
              by_cases hsl : c = '/' <;>
                simp [matchPat, hcbar, hsl, hstar, hq, hbk]
            | cons p rest =>
              simp only [matchPat, if_neg hstar, if_neg hq, if_neg hbk,
                List.cons_ne_nil, and_false, if_false]
              show (if p = c then matchPat (matchFuel k) rest ps
                    else .failure) ≠ .success
              by_cases hp : p = c
              · rw [if_pos hp]
                exact ihp rest hbar2 hbr2
              · rw [if_neg hp]
                simp

/-- A '|'-free pattern containing '[' can never produce SUCCESS from
    match_pathname either. -/
theorem match_pathname_bracket_ne_success (pathname patt : List Char)
    (hbar : '|' ∉ patt) (hbr : '[' ∈ patt) :
    match_pathname pathname patt ≠ .success := by
  intro hsucc
  unfold match_pathname at hsucc
  have hmem := firstNonFail_mem _ (by rw [hsucc]; simp)
  rw [hsucc] at hmem
  rw [List.mem_flatten] at hmem
  obtain ⟨l, hl, hsl⟩ := hmem
  obtain ⟨s, _, rfl⟩ := List.mem_map.mp hl
  rw [altSuffixes_noBar patt hbar] at hsl
  simp only [List.map_cons, List.map_nil] at hsl
  rcases List.mem_cons.mp hsl with h | h
  · unfold tryAlt at h
    split at h
    · exact matchFuel_bracket_ne_success 8 patt s hbar hbr h.symm
    · exact matchFuel_bracket_ne_success 8 patt (s.drop 1) hbar hbr h.symm
  · simp at h

/-! ## Lemmas about the result encoder and output framing -/

theorem encodeRecord_length (p m : List Char) :
    (encodeRecord p m).length = p.length + m.length + 4 := by
  simp [encodeRecord]
  omega

theorem encodeRecord_ne_nil (p m : List Char) : encodeRecord p m ≠ [] := by
  simp [encodeRecord]

theorem encodeRecord_getLast (p m : List Char) :
    (encodeRecord p m).getLast? = some '|' := by
  have h : encodeRecord p m = ('0' :: '|' :: (p ++ '|' :: m)) ++ ['|'] := by
    simp [encodeRecord]
  rw [h, List.getLast?_concat]

theorem copy_ok (p m buf : List Char) (off len : Nat)
    (h : (encodeRecord p m).length + 2 ≤ len) :
    copy_search_result p m buf off len
      = ⟨none, writeAt buf off (encodeRecord p m ++ [NULC, NULC]),
          off + (encodeRecord p m).length, len - (encodeRecord p m).length⟩ := by
  simp only [copy_search_result]
  rw [if_pos h]

theorem copy_err (p m buf : List Char) (off len : Nat)
    (h : ¬ (encodeRecord p m).length + 2 ≤ len) :
    copy_search_result p m buf off len = ⟨some (-34), buf, off, len⟩ := by
  simp only [copy_search_result]
  rw [if_neg h]

theorem copy_err_inv (p m buf : List Char) (off len : Nat) (e : Int)
    (b : List Char) (o l : Nat)
    (h : copy_search_result p m buf off len = ⟨some e, b, o, l⟩) :
    e = -34 ∧ b = buf ∧ o = off ∧ l = len := by
  by_cases hfit : (encodeRecord p m).length + 2 ≤ len
  · rw [copy_ok p m buf off len hfit] at h
    simp at h
  · rw [copy_err p m buf off len hfit] at h
    obtain ⟨h1, h2, h3, h4⟩ := CopyRes.mk.injEq .. ▸ h
    exact ⟨by simpa using h1.symm, h2.symm, h3.symm, h4.symm⟩

theorem emitRecords_cons_ok (p : List Char) (ps : List (List Char))
    (buf : List Char) (off len : Nat) (b1 : List Char) (o1 l1 : Nat)
    (h : copy_search_result p [] buf off len = ⟨none, b1, o1, l1⟩) :
    emitRecords (p :: ps) buf off len = emitRecords ps b1 o1 l1 := by
  simp only [emitRecords, h]

theorem emitRecords_cons_err (p : List Char) (ps : List (List Char))
    (buf : List Char) (off len : Nat) (e : Int) (b1 : List Char) (o1 l1 : Nat)
    (h : copy_search_result p [] buf off len = ⟨some e, b1, o1, l1⟩) :
    emitRecords (p :: ps) buf off len = ⟨some e, b1, o1, l1⟩ := by
  simp only [emitRecords, h]

theorem recsFlat_nil : recsFlat [] = [] := rfl

theorem recsFlat_cons (p : List Char) (ps : List (List Char)) :
    recsFlat (p :: ps) = encodeRecord p [] ++ recsFlat ps := by
  simp [recsFlat]

theorem take_app_len {α} (A B : List α) (k : Nat) :
    (A ++ B).take (A.length + k) = A ++ B.take k := by
  induction A with
  | nil => simp
  | cons a A ih => simpa [Nat.succ_add] using ih

theorem drop_app_len {α} (A B : List α) (k : Nat) :
    (A ++ B).drop (A.length + k) = B.drop k := by
  induction A with
  | nil => simp
  | cons a A ih => simp [Nat.succ_add, ih]

theorem take_app_self {α} (A B : List α) : (A ++ B).take A.length = A := by
  simp [take_app_len A B 0]

theorem drop_app_self {α} (A B : List α) : (A ++ B).drop A.length = B := by
  simp [drop_app_len A B 0]

theorem writeAt_length (buf data : List Char) (off : Nat)
    (h : off + data.length ≤ buf.length) :
    (writeAt buf off data).length = buf.length := by
  unfold writeAt
  rw [List.length_append, List.length_append, List.length_take, List.length_drop,
      Nat.min_eq_left (le_trans (Nat.le_add_right _ _) h)]
  omega

/-- The cumulative effect of the successful record emissions of one search
    call: the records land back to back starting at `off` (each one's double
    NUL terminator overwritten by its successor), the cursor ends up just
    past the concatenated records, the double NUL of the *last* record sits
    beyond the cursor, and the capacity decreases by the record bytes only. -/
theorem emitRecords_spec :
    ∀ ps (buf : List Char) (off len : Nat) (b : List Char) (o l : Nat),
      off + len ≤ buf.length →
      emitRecords ps buf off len = ⟨none, b, o, l⟩ →
      o = off + (recsFlat ps).length ∧
      l + (recsFlat ps).length = len ∧
      b.length = buf.length ∧
      b = buf.take off ++ recsFlat ps ++
          (if ps = [] then buf.drop off
           else [NULC, NULC] ++ buf.drop (off + (recsFlat ps).length + 2)) := by
  intro ps
  induction ps with
  | nil =>
    intro buf off len b o l hcap h
    obtain ⟨h1, h2, h3, h4⟩ := CopyRes.mk.injEq .. ▸ h
    subst h2; subst h3; subst h4
    refine ⟨by simp [recsFlat_nil], by simp [recsFlat_nil], rfl, ?_⟩
    simp [recsFlat_nil]
  | cons p ps ih =>
    intro buf off len b o l hcap h
    by_cases hfit : (encodeRecord p []).length + 2 ≤ len
    · set r := encodeRecord p [] with hr
      have hcopy := copy_ok p [] buf off len hfit
      rw [emitRecords_cons_ok p ps buf off len _ _ _ hcopy] at h
      have hb1cap : off + (r.length + 2) ≤ buf.length := by omega
      have hb1len : (writeAt buf off (r ++ [NULC, NULC])).length = buf.length := by
        apply writeAt_length
        simpa using hb1cap
      have hcap2 : (off + r.length) + (len - r.length)
          ≤ (writeAt buf off (r ++ [NULC, NULC])).length := by
        rw [hb1len]; omega
      obtain ⟨ho, hl, hblen, hb⟩ := ih _ _ _ _ _ _ hcap2 h
      have hofflen : off ≤ buf.length := by omega
      have htakelen : (buf.take off).length = off := by
        rw [List.length_take, Nat.min_eq_left hofflen]
      have hw : writeAt buf off (r ++ [NULC, NULC])
          = buf.take off ++ (r ++ [NULC, NULC]) ++ buf.drop (off + (r.length + 2)) := by
        unfold writeAt
        simp [List.append_assoc]
      have h1 : off + r.length = (buf.take off).length + r.length := by
        rw [htakelen]
      have htake : (writeAt buf off (r ++ [NULC, NULC])).take (off + r.length)
          = buf.take off ++ r := by
        rw [hw, List.append_assoc, h1, take_app_len,
            List.take_append_of_le_length (by simp),
            List.take_append_of_le_length le_rfl, List.take_length]
      refine ⟨?_, ?_, ?_, ?_⟩
      · rw [recsFlat_cons, ← hr, List.length_append]
        omega
      · rw [recsFlat_cons, ← hr, List.length_append]
        omega
      · rw [hblen, hb1len]
      · rw [hb, htake]
        by_cases hps : ps = []
        · subst hps
          simp only [recsFlat_nil, List.append_nil, if_pos rfl,
            if_neg (List.cons_ne_nil p [])]
          have hdrop : (writeAt buf off (r ++ [NULC, NULC])).drop (off + r.length)
              = [NULC, NULC] ++ buf.drop (off + (r.length + 2)) := by
            rw [hw, List.append_assoc, h1, drop_app_len, List.append_assoc,
                drop_app_self]
          rw [hdrop, recsFlat_cons, recsFlat_nil, List.append_nil, ← hr]
          have : off + r.length + 2 = off + (r.length + 2) := by omega
          rw [this]
          simp [List.append_assoc]
        · rw [if_neg hps, if_neg (List.cons_ne_nil p ps)]
          have hpre : (buf.take off ++ (r ++ [NULC, NULC])).length
              = off + (r.length + 2) := by
            rw [List.length_append, htakelen]
            simp
          have hdrop : (writeAt buf off (r ++ [NULC, NULC])).drop
                ((off + r.length) + (recsFlat ps).length + 2)
              = buf.drop (off + (recsFlat (p :: ps)).length + 2) := by
            have h2 : (off + r.length) + (recsFlat ps).length + 2
                = (buf.take off ++ (r ++ [NULC, NULC])).length + (recsFlat ps).length := by
              rw [hpre]; omega
            rw [hw, h2, drop_app_len, List.drop_drop, recsFlat_cons, ← hr,
                List.length_append]
            congr 1
            omega
          rw [hdrop, recsFlat_cons, ← hr]
          simp [List.append_assoc]
    · have hcopy := copy_err p [] buf off len hfit
      rw [emitRecords_cons_err p ps buf off len _ _ _ _ hcopy] at h
      simp at h

theorem recsFlat_pos (p : List Char) (ps : List (List Char)) :
    0 < (recsFlat (p :: ps)).length := by
  rw [recsFlat_cons, List.length_append, encodeRecord_length]
  omega

/-- The final buffer of a successful search session: the concatenation of the
    emitted records (each ending in '|') with the last byte (that trailing
    '|') replaced by NUL, followed by two more NUL bytes (the one just
    written and the surviving second terminator of the last record), then
    the untouched remainder of the caller's buffer. -/
theorem sessionEmit_spec (p0 : List Char) (ps : List (List Char))
    (buf : List Char) (len : Nat) (b : List Char) (o l : Nat)
    (hcap : len ≤ buf.length)
    (h : emitRecords (p0 :: ps) buf 0 len = ⟨none, b, o, l⟩) :
    sessionEmit (p0 :: ps) buf len
      = (recsFlat (p0 :: ps)).dropLast ++ [NULC, NULC, NULC]
          ++ buf.drop ((recsFlat (p0 :: ps)).length + 2) := by
  obtain ⟨ho, hl, hblen, hb⟩ := emitRecords_spec _ buf 0 len b o l (by omega) h
  simp only [Nat.zero_add] at ho
  rw [if_neg (List.cons_ne_nil p0 ps)] at hb
  simp only [List.take_zero, List.nil_append, Nat.zero_add] at hb
  have hpos : 0 < (recsFlat (p0 :: ps)).length := recsFlat_pos p0 ps
  have hone : o ≠ 0 := by omega
  unfold sessionEmit
  rw [h]
  simp only [if_pos hone]
  rw [hb]
  unfold writeAt
  have hsz : o - 1 + [NULC, NULC].length = o + 1 := by
    simp only [List.length_cons, List.length_nil]
    omega
  rw [hsz]
  have htk : (recsFlat (p0 :: ps) ++ ([NULC, NULC]
        ++ buf.drop ((recsFlat (p0 :: ps)).length + 2))).take (o - 1)
      = (recsFlat (p0 :: ps)).dropLast := by
    rw [List.take_append_of_le_length (by omega), ho]
    rw [List.dropLast_eq_take]
  have hdp : (recsFlat (p0 :: ps) ++ ([NULC, NULC]
        ++ buf.drop ((recsFlat (p0 :: ps)).length + 2))).drop (o + 1)
      = NULC :: buf.drop ((recsFlat (p0 :: ps)).length + 2) := by
    have h1 : o + 1 = (recsFlat (p0 :: ps)).length + 1 := by omega
    rw [h1, drop_app_len]
    rfl
  rw [htk, hdp]
  simp

/-! ## Lemmas about the tree walker -/

theorem baseFix_results (st : WState) : (baseFix st).results = st.results := by
  unfold baseFix; split <;> rfl

theorem baseFix_opens (st : WState) : (baseFix st).opens = st.opens := by
  unfold baseFix; split <;> rfl

theorem baseFix_closes (st : WState) : (baseFix st).closes = st.closes := by
  unfold baseFix; split <;> rfl

theorem nativeStep_err (dcode : Int) (dwrote : List Char) (st2 : WState)
    (h : dcode < 0) :
    (nativeStep dcode dwrote st2).1 = dcode ∧
    (nativeStep dcode dwrote st2).2.results = st2.results + dcode ∧
    (nativeStep dcode dwrote st2).2.opens = st2.opens ∧
    (nativeStep dcode dwrote st2).2.closes = st2.closes := by
  simp only [nativeStep]
  rw [if_pos h]
  exact ⟨rfl, rfl, rfl, rfl⟩

theorem nativeStep_ok (dcode : Int) (dwrote : List Char) (st2 : WState)
    (h : ¬ dcode < 0) :
    (nativeStep dcode dwrote st2).1 = 0 ∧
    (nativeStep dcode dwrote st2).2.results = st2.results + dcode ∧
    (nativeStep dcode dwrote st2).2.opens = st2.opens ∧
    (nativeStep dcode dwrote st2).2.closes = st2.closes + 1 := by
  simp only [nativeStep]
  rw [if_neg h]
  exact ⟨rfl, rfl, rfl, rfl⟩

/-- The three possible outcomes of the SUCCESS block: nothing (on a
    non-SUCCESS classification), a successful emission bumping ds->results,
    or the -ERANGE failure of copy_search_result leaving the state intact. -/
theorem matchEmit_cases (cfg : WConfig) (e : FSEnt) (how : SearchMatched)
    (stp : WState) :
    (¬ how = .success ∧ matchEmit cfg e how stp = (0, stp)) ∨
    (how = .success ∧ ∃ b o l,
        matchEmit cfg e how stp
          = (0, { stp with buf := b, off := o, len := l,
                           results := stp.results + 1 })) ∨
    (how = .success ∧ matchEmit cfg e how stp = (-34, stp)) := by
  by_cases hsucc : how = .success
  · right
    by_cases hfit : (encodeRecord
        (if cfg.flags.includeRoot then stp.path else FSEnt.name e) []).length + 2
        ≤ stp.len
    · left
      refine ⟨hsucc,
        writeAt stp.buf stp.off (encodeRecord
          (if cfg.flags.includeRoot then stp.path else FSEnt.name e) []
          ++ [NULC, NULC]),
        stp.off + (encodeRecord
          (if cfg.flags.includeRoot then stp.path else FSEnt.name e) []).length,
        stp.len - (encodeRecord
          (if cfg.flags.includeRoot then stp.path else FSEnt.name e) []).length,
        ?_⟩
      simp only [matchEmit]
      rw [if_pos hsucc, copy_ok _ _ _ _ _ hfit]
    · right
      refine ⟨hsucc, ?_⟩
      simp only [matchEmit]
      rw [if_pos hsucc, copy_err _ _ _ _ _ hfit]
  · left
    refine ⟨hsucc, ?_⟩
    simp only [matchEmit]
    rw [if_neg hsucc]

/-- One unfolding of the entry loop, with the successor state written
    without let bindings. -/
theorem walkEntriesF_cons_eq (cfg : WConfig)
    (recurse : FSEnt → WState → Int × WState) (e : FSEnt) (rest : List FSEnt)
    (st : WState) (stp : WState) (how : SearchMatched) (am : Int × WState)
    (hstp : stp = { st with path := st.path ++ '/' :: FSEnt.name e })
    (hhow : how = match_pathname (stp.path.drop stp.base) cfg.pattern)
    (ham : am = matchEmit cfg e how stp) :
    walkEntriesF cfg recurse (e :: rest) st
      = (if am.1 ≠ 0 then am
         else if how = .success ∧ cfg.flags.stopAtFirst = true then am
         else if shouldRecurse e how cfg.isrec then
           (if (recurse e am.2).1 ≠ 0 then recurse e am.2
            else if 0 < (recurse e am.2).2.results ∧ cfg.flags.stopAtFirst = true
              then (0, (recurse e am.2).2)
            else walkEntriesF cfg recurse rest
              { (recurse e am.2).2 with path := st.path })
         else walkEntriesF cfg recurse rest { am.2 with path := st.path }) := by
  subst hstp; subst hhow; subst ham
  rfl

theorem entsSafe_cons {e : FSEnt} {rest : List FSEnt}
    (h : entsSafe (e :: rest) = true) :
    entSafe e = true ∧ entsSafe rest = true := by
  rw [entsSafe, Bool.and_eq_true] at h
  exact h

theorem entSafe_dir_eq (nm : List Char) (openErr : Option Int)
    (native : Option (Int × List Char)) (children : List FSEnt) :
    entSafe (.dir nm openErr native children)
      = ((match openErr with | none => true | some e => decide (e < 0)) &&
         (match native with | none => true | some (c, _) => decide (c ≤ 1)) &&
         entsSafe children) := rfl

theorem entSafe_dir {nm : List Char} {openErr : Option Int}
    {native : Option (Int × List Char)} {children : List FSEnt}
    (h : entSafe (.dir nm openErr native children) = true) :
    (∀ e, openErr = some e → e < 0) ∧
    (∀ c w, native = some (c, w) → c ≤ 1) ∧ entsSafe children = true := by
  rw [entSafe_dir_eq, Bool.and_eq_true, Bool.and_eq_true] at h
  obtain ⟨⟨h1, h2⟩, h3⟩ := h
  refine ⟨?_, ?_, h3⟩
  · intro e he
    subst he
    simpa using h1
  · intro c w hn
    subst hn
    simpa using h2

/-- Stop-at-first invariant for the entry loop: starting from a zero result
    count (and assuming the recursive call preserves the invariant), a
    successful return carries a result count of 0 or 1, and a failing return
    carries a negative error code. -/
theorem walkEntries_stop (cfg : WConfig) (hflag : cfg.flags.stopAtFirst = true)
    (recurse : FSEnt → WState → Int × WState)
    (hrec : ∀ e st, entSafe e = true → st.results = 0 →
      (((recurse e st).1 = 0 →
          0 ≤ (recurse e st).2.results ∧ (recurse e st).2.results ≤ 1) ∧
       ((recurse e st).1 ≠ 0 → (recurse e st).1 < 0))) :
    ∀ children st, entsSafe children = true → st.results = 0 →
      (((walkEntriesF cfg recurse children st).1 = 0 →
          0 ≤ (walkEntriesF cfg recurse children st).2.results ∧
          (walkEntriesF cfg recurse children st).2.results ≤ 1) ∧
       ((walkEntriesF cfg recurse children st).1 ≠ 0 →
          (walkEntriesF cfg recurse children st).1 < 0)) := by
  intro children
  induction children with
  | nil =>
    intro st hsafe hres
    constructor
    · intro _
      constructor <;> simp [walkEntriesF, hres]
    · intro h
      simp [walkEntriesF] at h
  | cons e rest ih =>
    intro st hsafe hres
    obtain ⟨hse, hsr⟩ := entsSafe_cons hsafe
    obtain ⟨stp, hstp⟩ :
        ∃ stp, stp = { st with path := st.path ++ '/' :: FSEnt.name e } := ⟨_, rfl⟩
    obtain ⟨how, hhow⟩ :
        ∃ how, how = match_pathname (stp.path.drop stp.base) cfg.pattern := ⟨_, rfl⟩
    obtain ⟨am, ham⟩ : ∃ am, am = matchEmit cfg e how stp := ⟨_, rfl⟩
    have hstpres : stp.results = 0 := by rw [hstp]; exact hres
    rw [walkEntriesF_cons_eq cfg recurse e rest st stp how am hstp hhow ham]
    rcases matchEmit_cases cfg e how stp with ⟨hns, hameq⟩ |
      ⟨hsucc, b, o, l, hameq⟩ | ⟨hsucc, hameq⟩
    · -- no match here: am = (0, stp)
      rw [show am = (0, stp) from ham.trans hameq]
      rw [if_neg (by simp)]
      rw [if_neg (fun hc => hns hc.1)]
      by_cases hrecurse : shouldRecurse e how cfg.isrec = true
      · rw [if_pos hrecurse]
        have hr := hrec e stp hse hstpres
        by_cases hr1 : (recurse e ((0 : Int), stp).2).1 = 0
        · rw [if_neg (by simpa using hr1)]
          obtain ⟨hge, hle⟩ := hr.1 (by simpa using hr1)
          by_cases hpos : 0 < (recurse e ((0 : Int), stp).2).2.results
          · rw [if_pos ⟨hpos, hflag⟩]
            refine ⟨fun _ => ⟨?_, ?_⟩, fun h => absurd rfl h⟩
            · simpa using hge
            · simpa using hle
          · rw [if_neg (fun hc => hpos hc.1)]
            have hz : (recurse e ((0 : Int), stp).2).2.results = 0 := by
              have h1 : 0 ≤ (recurse e ((0 : Int), stp).2).2.results := by simpa using hge
              have h2 : (recurse e ((0 : Int), stp).2).2.results ≤ 1 := by simpa using hle
              omega
            exact ih { (recurse e ((0 : Int), stp).2).2 with path := st.path } hsr hz
        · rw [if_pos hr1]
          exact ⟨fun h => absurd h hr1, fun _ => hr.2 (by simpa using hr1)⟩
      · rw [if_neg hrecurse]
        exact ih { ((0 : Int), stp).2 with path := st.path } hsr hstpres
    · -- successful emission: with the flag set the walk stops at once
      rw [show am = (0, { stp with buf := b, off := o, len := l, results := stp.results + 1 }) from ham.trans hameq]
      rw [if_neg (by simp)]
      rw [if_pos ⟨hsucc, hflag⟩]
      refine ⟨fun _ => ⟨?_, ?_⟩, fun h => absurd rfl h⟩
      · show 0 ≤ stp.results + 1
        omega
      · show stp.results + 1 ≤ 1
        omega
    · -- copy_search_result failed with -ERANGE: abort
      rw [show am = (-34, stp) from ham.trans hameq]
      rw [if_pos (by norm_num)]
      constructor
      · intro h
        norm_num at h
      · intro _
        norm_num

theorem sdf_zero (cfg : WConfig) (ent : FSEnt) (st : WState) :
    search_directory_fuel cfg 0 ent st = (0, st) := rfl

theorem sdf_file (cfg : WConfig) (k : Nat) (nm : List Char) (st : WState) :
    search_directory_fuel cfg (k+1) (.file nm) st = (-20, st) := rfl

theorem sdf_openErr (cfg : WConfig) (k : Nat) (nm : List Char) (e : Int)
    (native : Option (Int × List Char)) (children : List FSEnt) (st : WState) :
    search_directory_fuel cfg (k+1) (.dir nm (some e) native children) st
      = if recoverable_open_error e = true then (0, st) else (e, st) := rfl

theorem sdf_native (cfg : WConfig) (k : Nat) (nm : List Char) (dcode : Int)
    (dwrote : List Char) (children : List FSEnt) (st : WState) :
    search_directory_fuel cfg (k+1) (.dir nm none (some (dcode, dwrote)) children) st
      = nativeStep dcode dwrote (baseFix { st with opens := st.opens + 1 }) := rfl

theorem sdf_generic (cfg : WConfig) (k : Nat) (nm : List Char)
    (children : List FSEnt) (st : WState) :
    search_directory_fuel cfg (k+1) (.dir nm none none children) st
      = ((walkEntriesF cfg (search_directory_fuel cfg k) children
            (baseFix { st with opens := st.opens + 1 })).1,
         { (walkEntriesF cfg (search_directory_fuel cfg k) children
            (baseFix { st with opens := st.opens + 1 })).2 with
           closes := (walkEntriesF cfg (search_directory_fuel cfg k) children
            (baseFix { st with opens := st.opens + 1 })).2.closes + 1 }) := rfl

/-- Stop-at-first invariant for the walker at any fuel level. -/
theorem search_fuel_stop (cfg : WConfig) (hflag : cfg.flags.stopAtFirst = true) :
    ∀ k ent st, entSafe ent = true → st.results = 0 →
      (((search_directory_fuel cfg k ent st).1 = 0 →
          0 ≤ (search_directory_fuel cfg k ent st).2.results ∧
          (search_directory_fuel cfg k ent st).2.results ≤ 1) ∧
       ((search_directory_fuel cfg k ent st).1 ≠ 0 →
          (search_directory_fuel cfg k ent st).1 < 0)) := by
  intro k
  induction k with
  | zero =>
    intro ent st hsafe hres
    rw [sdf_zero]
    exact ⟨fun _ => ⟨by simp [hres], by simp [hres]⟩, fun h => absurd rfl h⟩
  | succ k ih =>
    intro ent st hsafe hres
    cases ent with
    | file nm =>
      rw [sdf_file]
      refine ⟨fun h => ?_, fun _ => by norm_num⟩
      norm_num at h
    | dir nm openErr native children =>
      obtain ⟨hoe, hnat, hch⟩ := entSafe_dir hsafe
      cases openErr with
      | some e =>
        have hneg : e < 0 := hoe e rfl
        rw [sdf_openErr]
        by_cases hrecov : recoverable_open_error e = true
        · rw [if_pos hrecov]
          exact ⟨fun _ => ⟨by simp [hres], by simp [hres]⟩, fun h => absurd rfl h⟩
        · rw [if_neg hrecov]
          exact ⟨fun h => absurd h (by show ¬ e = 0; omega), fun _ => hneg⟩
      | none =>
        cases native with
        | some pr =>
          obtain ⟨dcode, dwrote⟩ := pr
          have hle : dcode ≤ 1 := hnat dcode dwrote rfl
          rw [sdf_native]
          by_cases hdc : dcode < 0
          · obtain ⟨h1, h2, _, _⟩ := nativeStep_err dcode dwrote _ hdc
            rw [h1]
            exact ⟨fun h => absurd h (by show ¬ dcode = 0; omega), fun _ => hdc⟩
          · obtain ⟨h1, h2, _, _⟩ := nativeStep_ok dcode dwrote _ hdc
            have hres2 : (baseFix { st with opens := st.opens + 1 }).results = 0 := by
              rw [baseFix_results]
              exact hres
            rw [h1, h2, hres2]
            exact ⟨fun _ => ⟨by omega, by omega⟩, fun h => absurd rfl h⟩
        | none =>
          rw [sdf_generic]
          have hres2 : (baseFix { st with opens := st.opens + 1 }).results = 0 := by
            rw [baseFix_results]
            exact hres
          have hw := walkEntries_stop cfg hflag (search_directory_fuel cfg k)
            (fun e2 st2 hse2 hr2 => ih e2 st2 hse2 hr2) children
            (baseFix { st with opens := st.opens + 1 }) hch hres2
          exact ⟨fun h => hw.1 h, fun h => hw.2 h⟩

theorem splitSlash_ne_nil : ∀ l : List Char, splitSlash l ≠ [] := by
  intro l
  induction l with
  | nil => simp [splitSlash]
  | cons c rest ih =>
    by_cases hc : c = '/'
    · simp [splitSlash, hc]
    · rw [splitSlash, if_neg hc]
      cases hsp : splitSlash rest with
      | nil => simp
      | cons s ss => simp

theorem lookupPath_file (nm : List Char) (comps : List (List Char))
    (hne : comps ≠ []) : lookupPath (.file nm) comps = none := by
  cases comps with
  | nil => exact absurd rfl hne
  | cons c cs => rfl

/-- The four possible outcomes of one literal-shortcut root. -/
theorem literalRoot_cases (cfg : WConfig) (r : FSEnt) (st1 : WState)
    (hsafe : entSafe r = true) :
    (∃ st2, literalRoot cfg r st1 = .inr st2 ∧ st2.results = st1.results) ∨
    (∃ st2, literalRoot cfg r st1 = .inr st2 ∧ st2.results = st1.results + 1 ∧
        cfg.flags.stopAtFirst = false) ∨
    (∃ e st2, literalRoot cfg r st1 = .inl (e, st2) ∧ e < 0) ∨
    (∃ st2, literalRoot cfg r st1 = .inl (0, st2) ∧
        st2.results = st1.results + 1 ∧ cfg.flags.stopAtFirst = true) := by
  cases hoe : FSEnt.openErrOf r with
  | some e =>
    have hneg : e < 0 := by
      cases r with
      | file fn => simp [FSEnt.openErrOf] at hoe
      | dir nm openErr native children =>
        obtain ⟨h1, _, _⟩ := entSafe_dir hsafe
        apply h1
        simpa [FSEnt.openErrOf] using hoe
    by_cases he2 : e = -2
    · left
      refine ⟨st1, ?_, rfl⟩
      simp only [literalRoot, hoe]
      rw [if_pos he2]
    · right; right; left
      refine ⟨e, st1, ?_, hneg⟩
      simp only [literalRoot, hoe]
      rw [if_neg he2]
  | none =>
    cases hlk : lookupPath r (splitSlash cfg.pattern) with
    | none =>
      left
      refine ⟨{ st1 with base := st1.path.length, path := st1.path ++ '/' :: cfg.pattern }, ?_, rfl⟩
      simp only [literalRoot, hoe, hlk]
    | some found =>
      by_cases hfit : (encodeRecord
          (if cfg.flags.includeRoot
            then st1.path ++ '/' :: cfg.pattern
            else (st1.path ++ '/' :: cfg.pattern).drop st1.path.length) []).length + 2
          ≤ st1.len
      · have hcopy := copy_ok (if cfg.flags.includeRoot
            then st1.path ++ '/' :: cfg.pattern
            else (st1.path ++ '/' :: cfg.pattern).drop st1.path.length) []
            st1.buf st1.off st1.len hfit
        by_cases hsf : cfg.flags.stopAtFirst = true
        · right; right; right
          refine ⟨{ st1 with base := st1.path.length, path := st1.path ++ '/' :: cfg.pattern, buf := writeAt st1.buf st1.off (encodeRecord (if cfg.flags.includeRoot then st1.path ++ '/' :: cfg.pattern else (st1.path ++ '/' :: cfg.pattern).drop st1.path.length) [] ++ [NULC, NULC]), off := st1.off + (encodeRecord (if cfg.flags.includeRoot then st1.path ++ '/' :: cfg.pattern else (st1.path ++ '/' :: cfg.pattern).drop st1.path.length) []).length, len := st1.len - (encodeRecord (if cfg.flags.includeRoot then st1.path ++ '/' :: cfg.pattern else (st1.path ++ '/' :: cfg.pattern).drop st1.path.length) []).length, results := st1.results + 1 }, ?_, rfl, hsf⟩
          simp only [literalRoot, hoe, hlk, hcopy, hsf, if_true]
        · right; left
          refine ⟨{ st1 with base := st1.path.length, path := st1.path ++ '/' :: cfg.pattern, buf := writeAt st1.buf st1.off (encodeRecord (if cfg.flags.includeRoot then st1.path ++ '/' :: cfg.pattern else (st1.path ++ '/' :: cfg.pattern).drop st1.path.length) [] ++ [NULC, NULC]), off := st1.off + (encodeRecord (if cfg.flags.includeRoot then st1.path ++ '/' :: cfg.pattern else (st1.path ++ '/' :: cfg.pattern).drop st1.path.length) []).length, len := st1.len - (encodeRecord (if cfg.flags.includeRoot then st1.path ++ '/' :: cfg.pattern else (st1.path ++ '/' :: cfg.pattern).drop st1.path.length) []).length, results := st1.results + 1 }, ?_, rfl, by simpa using hsf⟩
          simp only [literalRoot, hoe, hlk, hcopy, hsf, Bool.false_eq_true, if_false]
      · have hcopy := copy_err (if cfg.flags.includeRoot
            then st1.path ++ '/' :: cfg.pattern
            else (st1.path ++ '/' :: cfg.pattern).drop st1.path.length) []
            st1.buf st1.off st1.len hfit
        right; right; left
        refine ⟨-34, { st1 with base := st1.path.length, path := st1.path ++ '/' :: cfg.pattern }, ?_, by norm_num⟩
        simp only [literalRoot, hoe, hlk, hcopy]
theorem roots_nil (cfg : WConfig) (ispat : Bool) (st : WState) :
    search_roots cfg ispat [] st = (0, st) := rfl

theorem roots_cons_pat (cfg : WConfig) (r : FSEnt) (rest : List FSEnt) (st : WState) :
    search_roots cfg true (r :: rest) st
      = (if (search_directory cfg r 0 { st with path := FSEnt.name r, base := 0 }).1 ≠ 0
           then search_directory cfg r 0 { st with path := FSEnt.name r, base := 0 }
         else if 0 < (search_directory cfg r 0 { st with path := FSEnt.name r, base := 0 }).2.results
                ∧ cfg.flags.stopAtFirst = true
           then (0, (search_directory cfg r 0 { st with path := FSEnt.name r, base := 0 }).2)
         else search_roots cfg true rest
           (search_directory cfg r 0 { st with path := FSEnt.name r, base := 0 }).2) := rfl

theorem roots_cons_lit (cfg : WConfig) (r : FSEnt) (rest : List FSEnt) (st : WState) :
    search_roots cfg false (r :: rest) st
      = (match literalRoot cfg r { st with path := FSEnt.name r } with
         | .inl out => out
         | .inr st2 => search_roots cfg false rest st2) := rfl

/-- The entry state of each root iteration only changes the path buffer,
    which the iteration overwrites first thing. -/
theorem roots_cons_path_any (cfg : WConfig) (ispat : Bool) (r : FSEnt)
    (rest : List FSEnt) (st : WState) (p : List Char) :
    search_roots cfg ispat (r :: rest) { st with path := p }
      = search_roots cfg ispat (r :: rest) st := rfl

/-- Stop-at-first invariant for the per-root loop. -/
theorem search_roots_stop (cfg : WConfig) (hflag : cfg.flags.stopAtFirst = true)
    (ispat : Bool) :
    ∀ roots st, entsSafe roots = true → st.results = 0 →
      (((search_roots cfg ispat roots st).1 = 0 →
          0 ≤ (search_roots cfg ispat roots st).2.results ∧
          (search_roots cfg ispat roots st).2.results ≤ 1) ∧
       ((search_roots cfg ispat roots st).1 ≠ 0 →
          (search_roots cfg ispat roots st).1 < 0)) := by
  intro roots
  induction roots with
  | nil =>
    intro st hsafe hres
    rw [roots_nil]
    exact ⟨fun _ => ⟨by simp [hres], by simp [hres]⟩, fun h => absurd rfl h⟩
  | cons r rest ih =>
    intro st hsafe hres
    obtain ⟨hse, hsr⟩ := entsSafe_cons hsafe
    cases ispat with
    | true =>
      rw [roots_cons_pat]
      rw [show search_directory cfg r 0 { st with path := FSEnt.name r, base := 0 }
            = search_directory_fuel cfg 16 r { st with path := FSEnt.name r, base := 0 }
          from rfl]
      have hfuel := search_fuel_stop cfg hflag 16 r
        { st with path := FSEnt.name r, base := 0 } hse hres
      by_cases hw1 : (search_directory_fuel cfg 16 r
          { st with path := FSEnt.name r, base := 0 }).1 = 0
      · rw [if_neg (not_not_intro hw1)]
        obtain ⟨hge, hle⟩ := hfuel.1 hw1
        by_cases hpos : 0 < (search_directory_fuel cfg 16 r
            { st with path := FSEnt.name r, base := 0 }).2.results
        · rw [if_pos ⟨hpos, hflag⟩]
          exact ⟨fun _ => ⟨hge, hle⟩, fun h => absurd rfl h⟩
        · rw [if_neg (fun hc => hpos hc.1)]
          have hz : (search_directory_fuel cfg 16 r
              { st with path := FSEnt.name r, base := 0 }).2.results = 0 := by omega
          exact ih _ hsr hz
      · rw [if_pos hw1]
        exact ⟨fun h => absurd h hw1, fun _ => hfuel.2 hw1⟩
    | false =>
      rw [roots_cons_lit]
      rcases literalRoot_cases cfg r { st with path := FSEnt.name r } hse with
        ⟨st2, heq, hres2⟩ | ⟨st2, heq, hres2, hoff⟩ | ⟨e, st2, heq, hneg⟩ |
        ⟨st2, heq, hres2, _⟩
      · rw [heq]
        exact ih st2 hsr (hres2.trans hres)
      · exact absurd (hflag.symm.trans hoff) (by simp)
      · rw [heq]
        exact ⟨fun h => absurd h (by show ¬ e = 0; omega), fun _ => hneg⟩
      · rw [heq]
        have h1 : st2.results = 1 := by
          rw [hres2]
          simp [hres]
        refine ⟨fun _ => ?_, fun h => absurd rfl h⟩
        show 0 ≤ st2.results ∧ st2.results ≤ 1
        omega

theorem fixup_results (x : WState) (c : Prop) [Decidable c] (b : List Char) :
    ((if c then { x with buf := b } else x) : WState).results = x.results := by
  split <;> rfl

theorem sys_search_eq (roots : List FSEnt) (patternArg : List Char)
    (flags : SearchFlags) (len : Nat) (buf0 : List Char) (R : Int × WState)
    (hR : R = search_roots (sysCfg patternArg flags) (ispattern patternArg)
            roots (sysSt0 len buf0)) :
    sys_search roots patternArg flags len buf0
      = if R.1 ≠ 0 then (R.1, R.2.buf)
        else (((if R.2.off ≠ 0 then { R.2 with buf := writeAt R.2.buf (R.2.off - 1) [NULC, NULC] } else R.2) : WState).results, ((if R.2.off ≠ 0 then { R.2 with buf := writeAt R.2.buf (R.2.off - 1) [NULC, NULC] } else R.2) : WState).buf) := by
  subst hR
  rfl

/-- Under SEARCH_STOPATFIRST a successful call reports at most one match. -/
theorem sys_stop_le_one (roots : List FSEnt) (patternArg : List Char)
    (flags : SearchFlags) (len : Nat) (buf0 : List Char)
    (hflag : flags.stopAtFirst = true) (hsafe : entsSafe roots = true)
    (hok : 0 ≤ (sys_search roots patternArg flags len buf0).1) :
    (sys_search roots patternArg flags len buf0).1 ≤ 1 := by
  rw [sys_search_eq roots patternArg flags len buf0 _ rfl] at hok ⊢
  have hx := search_roots_stop (sysCfg patternArg flags) hflag
    (ispattern patternArg) roots (sysSt0 len buf0) hsafe rfl
  by_cases h1 : (search_roots (sysCfg patternArg flags) (ispattern patternArg)
      roots (sysSt0 len buf0)).1 = 0
  · rw [if_neg (not_not_intro h1)] at hok ⊢
    obtain ⟨hge, hle⟩ := hx.1 h1
    rw [fixup_results]
    exact hle
  · rw [if_pos h1] at hok ⊢
    have := hx.2 h1
    omega

theorem noNativeL_cons {e : FSEnt} {rest : List FSEnt}
    (h : noNativeL (e :: rest) = true) :
    noNative e = true ∧ noNativeL rest = true := by
  rw [noNativeL, Bool.and_eq_true] at h
  exact h

theorem noNative_dir_eq (nm : List Char) (openErr : Option Int)
    (native : Option (Int × List Char)) (children : List FSEnt) :
    noNative (.dir nm openErr native children)
      = ((match native with | none => true | some _ => false) &&
         noNativeL children) := rfl

theorem noNative_dir {nm : List Char} {openErr : Option Int}
    {native : Option (Int × List Char)} {children : List FSEnt}
    (h : noNative (.dir nm openErr native children) = true) :
    native = none ∧ noNativeL children = true := by
  rw [noNative_dir_eq, Bool.and_eq_true] at h
  obtain ⟨h1, h2⟩ := h
  refine ⟨?_, h2⟩
  cases native with
  | none => rfl
  | some pr => simp at h1

theorem matchEmit_handles (cfg : WConfig) (e : FSEnt) (how : SearchMatched)
    (stp : WState) :
    (matchEmit cfg e how stp).2.opens = stp.opens ∧
    (matchEmit cfg e how stp).2.closes = stp.closes := by
  rcases matchEmit_cases cfg e how stp with ⟨_, h⟩ | ⟨_, b, o, l, h⟩ | ⟨_, h⟩ <;>
    rw [h] <;> exact ⟨rfl, rfl⟩

/-- Handle balance for the entry loop: the loop itself opens and closes
    nothing; every change comes from the recursive calls, which are assumed
    balanced on native-free subtrees. -/
theorem walkEntries_balance (cfg : WConfig)
    (recurse : FSEnt → WState → Int × WState)
    (hrec : ∀ e st, noNative e = true →
      (recurse e st).2.opens + st.closes = (recurse e st).2.closes + st.opens) :
    ∀ children st, noNativeL children = true →
      (walkEntriesF cfg recurse children st).2.opens + st.closes
        = (walkEntriesF cfg recurse children st).2.closes + st.opens := by
  intro children
  induction children with
  | nil =>
    intro st hsafe
    rw [show walkEntriesF cfg recurse [] st = (0, st) from rfl]
    show st.opens + st.closes = st.closes + st.opens
    omega
  | cons e rest ih =>
    intro st hsafe
    obtain ⟨hne, hnr⟩ := noNativeL_cons hsafe
    obtain ⟨stp, hstp⟩ :
        ∃ stp, stp = { st with path := st.path ++ '/' :: FSEnt.name e } := ⟨_, rfl⟩
    obtain ⟨how, hhow⟩ :
        ∃ how, how = match_pathname (stp.path.drop stp.base) cfg.pattern := ⟨_, rfl⟩
    obtain ⟨am, ham⟩ : ∃ am, am = matchEmit cfg e how stp := ⟨_, rfl⟩
    have hstpo : stp.opens = st.opens := by rw [hstp]
    have hstpc : stp.closes = st.closes := by rw [hstp]
    have hamo : am.2.opens = st.opens := by
      rw [ham, (matchEmit_handles cfg e how stp).1, hstpo]
    have hamc : am.2.closes = st.closes := by
      rw [ham, (matchEmit_handles cfg e how stp).2, hstpc]
    rw [walkEntriesF_cons_eq cfg recurse e rest st stp how am hstp hhow ham]
    by_cases h1 : am.1 ≠ 0
    · rw [if_pos h1]
      omega
    · rw [if_neg h1]
      by_cases h2 : how = .success ∧ cfg.flags.stopAtFirst = true
      · rw [if_pos h2]
        omega
      · rw [if_neg h2]
        by_cases h3 : shouldRecurse e how cfg.isrec = true
        · rw [if_pos h3]
          have hbal := hrec e am.2 hne
          by_cases h4 : (recurse e am.2).1 ≠ 0
          · rw [if_pos h4]
            omega
          · rw [if_neg h4]
            by_cases h5 : 0 < (recurse e am.2).2.results ∧
                cfg.flags.stopAtFirst = true
            · rw [if_pos h5]
              show (recurse e am.2).2.opens + st.closes
                  = (recurse e am.2).2.closes + st.opens
              omega
            · rw [if_neg h5]
              have hnext := ih { (recurse e am.2).2 with path := st.path } hnr
              have ho2 : ({ (recurse e am.2).2 with path := st.path } : WState).opens
                  = (recurse e am.2).2.opens := rfl
              have hc2 : ({ (recurse e am.2).2 with path := st.path } : WState).closes
                  = (recurse e am.2).2.closes := rfl
              rw [ho2, hc2] at hnext
              omega
        · rw [if_neg h3]
          have hnext := ih { am.2 with path := st.path } hnr
          have ho2 : ({ am.2 with path := st.path } : WState).opens = am.2.opens := rfl
          have hc2 : ({ am.2 with path := st.path } : WState).closes = am.2.closes := rfl
          rw [ho2, hc2] at hnext
          omega

/-- On a native-free tree every successfully opened directory handle is
    closed again, on every path out of the walker. -/
theorem search_fuel_balance (cfg : WConfig) :
    ∀ k ent st, noNative ent = true →
      (search_directory_fuel cfg k ent st).2.opens + st.closes
        = (search_directory_fuel cfg k ent st).2.closes + st.opens := by
  intro k
  induction k with
  | zero =>
    intro ent st hsafe
    rw [sdf_zero]
    show st.opens + st.closes = st.closes + st.opens
    omega
  | succ k ih =>
    intro ent st hsafe
    cases ent with
    | file nm =>
      rw [sdf_file]
      show st.opens + st.closes = st.closes + st.opens
      omega
    | dir nm openErr native children =>
      obtain ⟨hnn, hnc⟩ := noNative_dir hsafe
      subst hnn
      cases openErr with
      | some e =>
        rw [sdf_openErr]
        split
        all_goals
          show st.opens + st.closes = st.closes + st.opens
          omega
      | none =>
        rw [sdf_generic]
        have hb := walkEntries_balance cfg (search_directory_fuel cfg k)
          (fun e2 st2 hn2 => ih e2 st2 hn2) children
          (baseFix { st with opens := st.opens + 1 }) hnc
        rw [baseFix_opens, baseFix_closes] at hb
        have ho : ({ st with opens := st.opens + 1 } : WState).opens = st.opens + 1 := rfl
        have hc : ({ st with opens := st.opens + 1 } : WState).closes = st.closes := rfl
        rw [ho, hc] at hb
        show (walkEntriesF cfg (search_directory_fuel cfg k) children
            (baseFix { st with opens := st.opens + 1 })).2.opens + st.closes
          = (walkEntriesF cfg (search_directory_fuel cfg k) children
            (baseFix { st with opens := st.opens + 1 })).2.closes + 1 + st.opens
        omega

/-! ## Claims -/

/-- Claim C1: when the segment matcher encounters '*', it tries the empty
    match first and then consumes one additional path character at a time,
    recursing on the rest of the pattern after each attempt and returning
    the first non-Failure outcome; it stops growing once a path separator or
    end-of-string is reached, so every position '*' tries is reached by
    consuming filename characters only and '*' never matches across '/';
    pattern "*" against the empty path at a leaf call yields Success, and
    pattern "/a*b" matches "/axxb" but not "/axx/b". -/
theorem C1_star_semantics :
    (∀ n pathname ps, n < 8 →
        __match_pathname n pathname ('*' :: ps)
          = firstNonFail ((starAttempts pathname).map
              (fun s => __match_pathname (n+1) s ps))) ∧
    (∀ pathname s, s ∈ starAttempts pathname →
        ∃ pre, pathname = pre ++ s ∧ ∀ c ∈ pre, is_filename c = true) ∧
    __match_pathname 0 [] ['*'] = .success ∧
    match_pathname ['/','a','x','x','b'] ['/','a','*','b'] = .success ∧
    match_pathname ['/','a','x','x','/','b'] ['/','a','*','b'] = .failure :=
  ⟨fun n pathname ps h => match_star_eq n pathname ps h, starAttempts_split,
   by decide, by decide, by decide⟩

/-- Claim C5: the segment matcher is total — it is a function defined on
    every recursion count, path and pattern, always yielding one of the four
    outcomes; at or above the bound 8 it returns Overflow immediately; and a
    pattern of 20 consecutive '*' tokens resolves to Overflow against every
    path, with no unbounded recursion. -/
theorem C5_matcher_total :
    (∀ n pathname pattern, 8 ≤ n →
        __match_pathname n pathname pattern = .overflow) ∧
    (∀ pathname, __match_pathname 0 pathname (List.replicate 20 '*') = .overflow) ∧
    (∀ n pathname pattern,
        __match_pathname n pathname pattern = .failure ∨
        __match_pathname n pathname pattern = .partialMatch ∨
        __match_pathname n pathname pattern = .success ∨
        __match_pathname n pathname pattern = .overflow) :=
  ⟨match_overflow_at_bound,
   fun pathname => matchFuel_replicate_star 8 20 pathname (by omega),
   fun n pathname pattern => by
     cases h : __match_pathname n pathname pattern <;> simp [h]⟩

/-- Claim C8 (counterexample): a pattern containing '[' CAN produce a match.
    The pattern "a|[" contains '[' yet matches the candidate path "/a"
    through its first alternative; and the pattern "/a[b", which contains
    '[' but starts with '/' and has none of the ispattern wildcard
    characters, takes the literal-path shortcut, which resolves '[' as an
    ordinary byte: against a filesystem holding a file literally named
    "a[b" the call reports one match. -/
theorem C8_counterexample :
    ('[' ∈ ['a','|','[']) ∧
    match_pathname ['/','a'] ['a','|','['] = .success ∧
    ('[' ∈ ['/','a','[','b']) ∧
    ispattern ['/','a','[','b'] = false ∧
    (sys_search [FSEnt.dir ['/','r'] none none [FSEnt.file ['a','[','b']]]
        ['/','a','[','b'] noFlags 64 (List.replicate 64 '#')).1 = 1 :=
  ⟨by decide, by decide, by decide, by decide, by decide⟩

/-- Claim C8 (amended): the segment matcher fails as soon as it reaches
    '[', and a '|'-free pattern containing '[' can never yield Success
    from the segment matcher or from match_pathname; but a pattern may
    still match through an alternative that avoids '[', and the
    literal-path shortcut treats '[' as an ordinary byte. -/
theorem C8_bracket :
    (∀ n pathname ps, n < 8 →
        __match_pathname n pathname ('[' :: ps) = .failure) ∧
    (∀ n pathname patt, '|' ∉ patt → '[' ∈ patt →
        __match_pathname n pathname patt ≠ .success) ∧
    (∀ pathname patt, '|' ∉ patt → '[' ∈ patt →
        match_pathname pathname patt ≠ .success) ∧
    ('|' ∉ ['x','['] ∧ '[' ∈ ['x','['] ∧
      __match_pathname 0 ['x'] ['x','['] = .failure) ∧
    (sys_search [FSEnt.dir ['/','r'] none none [FSEnt.file ['x','[','y']]]
        ['/','x','[','y'] noFlags 64 (List.replicate 64 '#')).1 = 1 :=
  ⟨fun n pathname ps h => match_bracket_failure n pathname ps h,
   fun n pathname patt hb hbr => matchFuel_bracket_ne_success (8 - n) patt pathname hb hbr,
   match_pathname_bracket_ne_success,
   ⟨by decide, by decide, by decide⟩, by decide⟩

/-- Claim C2 (counterexample): in the final buffer of a successful search
    with two matches, the first emitted record is NOT followed by two NUL
    terminator bytes — its terminators were overwritten by the second
    record, whose first two bytes '0' and '|' sit right after it — so the
    buffer is not a sequence of double-NUL-delimited records. -/
theorem C2_counterexample :
    sys_search [FSEnt.dir ['/','r'] none none [FSEnt.file ['a'], FSEnt.file ['b']]]
        ['?'] noFlags 20 (List.replicate 20 '#')
      = (2, ['0','|','a','|','|','0','|','b','|', NULC, NULC, NULC]
             ++ List.replicate 8 '#') ∧
    (sys_search [FSEnt.dir ['/','r'] none none [FSEnt.file ['a'], FSEnt.file ['b']]]
        ['?'] noFlags 20 (List.replicate 20 '#')).2.take 5 = ['0','|','a','|','|'] ∧
    (sys_search [FSEnt.dir ['/','r'] none none [FSEnt.file ['a'], FSEnt.file ['b']]]
        ['?'] noFlags 20 (List.replicate 20 '#')).2.get? 5 = some '0' ∧
    (sys_search [FSEnt.dir ['/','r'] none none [FSEnt.file ['a'], FSEnt.file ['b']]]
        ['?'] noFlags 20 (List.replicate 20 '#')).2.get? 6 = some '|' ∧
    some '0' ≠ some NULC ∧ some '|' ≠ some NULC :=
  ⟨by decide, by decide, by decide, by decide, by decide, by decide⟩

/-- Claim C2 (amended): each record is written followed by two NUL bytes,
    but the cursor advances by the record length only, so the next record
    overwrites those NULs; after all emissions the buffer holds the records
    back to back (each ending in '|') with only the last record's double
    NUL surviving past the cursor; the final fix-up then replaces the last
    record's trailing '|' and the byte after it with NUL NUL, leaving the
    concatenated records minus their final '|', then three NUL bytes, then
    the untouched remainder — one closing double-terminator for the whole
    buffer, with '|' as the interior record separator. -/
theorem C2_output_framing :
    (∀ p m, (encodeRecord p m).getLast? = some '|') ∧
    (∀ p m buf off len, (encodeRecord p m).length + 2 ≤ len →
        copy_search_result p m buf off len
          = ⟨none, writeAt buf off (encodeRecord p m ++ [NULC, NULC]),
              off + (encodeRecord p m).length, len - (encodeRecord p m).length⟩) ∧
    (∀ ps buf off len b o l, off + len ≤ buf.length →
        emitRecords ps buf off len = ⟨none, b, o, l⟩ →
        o = off + (recsFlat ps).length ∧ l + (recsFlat ps).length = len ∧
        b.length = buf.length ∧
        b = buf.take off ++ recsFlat ps ++
            (if ps = [] then buf.drop off
             else [NULC, NULC] ++ buf.drop (off + (recsFlat ps).length + 2))) ∧
    (∀ p0 ps buf len b o l, len ≤ buf.length →
        emitRecords (p0 :: ps) buf 0 len = ⟨none, b, o, l⟩ →
        sessionEmit (p0 :: ps) buf len
          = (recsFlat (p0 :: ps)).dropLast ++ [NULC, NULC, NULC]
              ++ buf.drop ((recsFlat (p0 :: ps)).length + 2)) ∧
    sessionEmit [['a'], ['b']] (List.replicate 20 '#') 20
      = ['0','|','a','|','|','0','|','b','|', NULC, NULC, NULC]
          ++ List.replicate 8 '#' :=
  ⟨encodeRecord_getLast, copy_ok, emitRecords_spec,
   fun p0 ps buf len b o l hcap h => sessionEmit_spec p0 ps buf len b o l hcap h,
   by decide⟩

/-- Claim C3: when an encoded record plus its two terminator bytes does not
    fit in the remaining capacity, copy_search_result writes nothing and
    returns -ERANGE; the error aborts the whole call, which returns the
    negative code instead of a match count — even when an earlier record
    was already emitted, and even when later entries would also match. -/
theorem C3_buffer_too_small :
    (∀ p m buf off len, len < (encodeRecord p m).length + 2 →
        copy_search_result p m buf off len = ⟨some (-34), buf, off, len⟩) ∧
    (sys_search [FSEnt.dir ['/','r'] none none [FSEnt.file ['a'], FSEnt.file ['b']]]
        ['?'] noFlags 9 (List.replicate 9 '#')).1 = -34 ∧
    (sys_search [FSEnt.dir ['/','s'] none none [FSEnt.file ['c'], FSEnt.file ['d']]]
        ['?'] noFlags 3 (List.replicate 3 '#')).1 = -34 ∧
    ((-34 : Int) < 0) :=
  ⟨fun p m buf off len h => copy_err p m buf off len (by omega),
   by decide, by decide, by decide⟩

/-- Claim C4 (counterexample): the recursion guard of search_directory
    (line 1390) is satisfied by a directory entry whose match outcome is
    Failure whenever the search is unanchored — entries with outcome
    Failure ARE recursed into; observably, an unanchored search for "b"
    descends through the non-matching directory "a" and still reports the
    match "a/b". -/
theorem C4_counterexample :
    shouldRecurse (FSEnt.dir ['a'] none none []) .failure true = true ∧
    match_pathname ['/','a'] ['b'] = .failure ∧
    isrecursive ['b'] = true ∧
    (sys_search [FSEnt.dir ['/','r'] none none
        [FSEnt.dir ['a'] none none [FSEnt.file ['b']]]]
        ['b'] noFlags 64 (List.replicate 64 '#')).1 = 1 :=
  ⟨by decide, by decide, by decide, by decide⟩

/-- Claim C4 (amended): the walker recurses into an entry exactly when it
    is a directory other than "." and ".." and either its match outcome is
    Partial or the search is unanchored; the outcome being Success is not
    required (in an unanchored search even Failure entries are recursed
    into), and in an anchored search only Partial entries are. -/
theorem C4_recursion_guard :
    (∀ e how isrec, shouldRecurse e how isrec = true ↔
        (FSEnt.dtype e = 'd' ∧ FSEnt.name e ≠ ['.'] ∧
         FSEnt.name e ≠ ['.', '.'] ∧ (how = .partialMatch ∨ isrec = true))) ∧
    (∀ e how, shouldRecurse e how false = true → how = .partialMatch) ∧
    shouldRecurse (FSEnt.dir ['a'] none none []) .success false = false ∧
    shouldRecurse (FSEnt.dir ['a'] none none []) .partialMatch false = true ∧
    shouldRecurse (FSEnt.dir ['.'] none none []) .partialMatch true = false := by
  refine ⟨?_, ?_, by decide, by decide, by decide⟩
  · intro e how isrec
    unfold shouldRecurse
    exact decide_eq_true_iff
  · intro e how h
    unfold shouldRecurse at h
    have h2 := of_decide_eq_true h
    rcases h2.2.2.2 with h3 | h3
    · exact h3
    · simp at h3

/-- Claim C7: a recoverable open error (-ENOENT, -EPERM, -EACCES, -ENODEV)
    at a directory during descent makes the walker skip that branch and
    return 0, so the search continues with siblings and other roots; any
    other open error (e.g. -EIO = -5) is returned and aborts the whole
    search with that code. -/
theorem C7_open_error_handling :
    (∀ cfg nm e native children n st, n < 16 → recoverable_open_error e = true →
        search_directory cfg (FSEnt.dir nm (some e) native children) n st
          = (0, st)) ∧
    (∀ cfg nm e native children n st, n < 16 → recoverable_open_error e = false →
        search_directory cfg (FSEnt.dir nm (some e) native children) n st
          = (e, st)) ∧
    (recoverable_open_error (-2) = true ∧ recoverable_open_error (-1) = true ∧
     recoverable_open_error (-13) = true ∧ recoverable_open_error (-19) = true ∧
     recoverable_open_error (-5) = false) ∧
    (sys_search [FSEnt.dir ['/','r'] none none
        [FSEnt.dir ['x'] (some (-13)) none [], FSEnt.file ['m']]]
        ['m'] noFlags 64 (List.replicate 64 '#')).1 = 1 ∧
    (sys_search [FSEnt.dir ['/','r'] none none
        [FSEnt.dir ['x'] (some (-5)) none [], FSEnt.file ['m']]]
        ['m'] noFlags 64 (List.replicate 64 '#')).1 = -5 := by
  refine ⟨?_, ?_, ⟨by decide, by decide, by decide, by decide, by decide⟩,
    by decide, by decide⟩
  · intro cfg nm e native children n st hn hrecov
    have hk : 16 - n = (15 - n) + 1 := by omega
    unfold search_directory
    rw [hk, sdf_openErr, if_pos hrecov]
  · intro cfg nm e native children n st hn hrecov
    have hk : 16 - n = (15 - n) + 1 := by omega
    unfold search_directory
    rw [hk, sdf_openErr, if_neg (by simp [hrecov])]

/-- Claim C6: with SEARCH_STOPATFIRST set, a successful call reports a
    match count of at most 1 (so exactly 0 or 1), across all roots, all
    recursion levels and native-delegated subtrees — provided the model
    filesystem is well formed (open errors are negative errnos and native
    providers, which receive the flags verbatim, report at most one
    match).  The concrete runs show a multi-match generic tree, a native
    root followed by a generic root, and the literal shortcut over two
    roots each reporting exactly 1. -/
theorem C6_stop_at_first :
    (∀ roots patternArg flags len buf0,
        flags.stopAtFirst = true → entsSafe roots = true →
        0 ≤ (sys_search roots patternArg flags len buf0).1 →
        (sys_search roots patternArg flags len buf0).1 ≤ 1) ∧
    entsSafe [FSEnt.dir ['/','n'] none (some (1, ['0','|','x','|','|'])) [],
      FSEnt.dir ['/','r'] none none
        [FSEnt.file ['a'], FSEnt.file ['b'],
         FSEnt.dir ['s'] none none [FSEnt.file ['c']]]] = true ∧
    (sys_search [FSEnt.dir ['/','n'] none (some (1, ['0','|','x','|','|'])) [],
        FSEnt.dir ['/','r'] none none
          [FSEnt.file ['a'], FSEnt.file ['b'],
           FSEnt.dir ['s'] none none [FSEnt.file ['c']]]]
        ['?'] stopFirst 64 (List.replicate 64 '#')).1 = 1 ∧
    (sys_search [FSEnt.dir ['/','r'] none none
        [FSEnt.file ['a'], FSEnt.file ['b'],
         FSEnt.dir ['s'] none none [FSEnt.file ['c']]]]
        ['?'] stopFirst 64 (List.replicate 64 '#')).1 = 1 ∧
    (sys_search [FSEnt.dir ['/','q'] none none [FSEnt.file ['a']],
        FSEnt.dir ['/','r'] none none [FSEnt.file ['a']]]
        ['/','a'] stopFirst 64 (List.replicate 64 '#')).1 = 1 :=
  ⟨fun roots p f l b hf hs hok => sys_stop_le_one roots p f l b hf hs hok,
   by decide, by decide, by decide, by decide⟩

/-- Claim C9 (code bug): when the native search hook of an opened directory
    returns a negative code, search_directory takes the C `goto out` that
    jumps past the filp_close at exitn and returns without releasing the
    handle: at the failing input one handle has been opened and none
    closed.  On native-free trees the walker is handle-balanced on every
    path out (success and failure alike). -/
theorem C9_handle_leak :
    ((search_directory ⟨['a'], noFlags, true⟩
        (FSEnt.dir ['/','d'] none (some (-5, [])) []) 0
        ⟨0, ['/','d'], 0, List.replicate 8 '#', 0, 8, 0, 0⟩).1 = -5 ∧
     (search_directory ⟨['a'], noFlags, true⟩
        (FSEnt.dir ['/','d'] none (some (-5, [])) []) 0
        ⟨0, ['/','d'], 0, List.replicate 8 '#', 0, 8, 0, 0⟩).2.opens = 1 ∧
     (search_directory ⟨['a'], noFlags, true⟩
        (FSEnt.dir ['/','d'] none (some (-5, [])) []) 0
        ⟨0, ['/','d'], 0, List.replicate 8 '#', 0, 8, 0, 0⟩).2.closes = 0) ∧
    (∀ cfg ent n st, noNative ent = true →
        (search_directory cfg ent n st).2.opens + st.closes
          = (search_directory cfg ent n st).2.closes + st.opens) :=
  ⟨⟨by decide, by decide, by decide⟩,
   fun cfg ent n st h => search_fuel_balance cfg (16 - n) ent st h⟩

/-- Claim C10: the recoverable-open-error skip applies at depth 0 too: for
    a pattern search whose top-level root fails to open with a recoverable
    error, the call behaves exactly as if that root were absent — the
    walker returns 0 at depth 0 and the loop proceeds to the next root —
    and concretely an ENOENT first root still lets the second root report
    its match, while a sole failing root yields the nonnegative count 0. -/
theorem C10_root_skip :
    (∀ patternArg flags len buf0 nm e native children rest,
        ispattern patternArg = true → recoverable_open_error e = true →
        sys_search (FSEnt.dir nm (some e) native children :: rest)
            patternArg flags len buf0
          = sys_search rest patternArg flags len buf0) ∧
    (sys_search [FSEnt.dir ['/','x'] (some (-2)) none [],
        FSEnt.dir ['/','r'] none none [FSEnt.file ['a']]]
        ['a'] noFlags 64 (List.replicate 64 '#')).1 = 1 ∧
    0 ≤ (sys_search [FSEnt.dir ['/','x'] (some (-2)) none []]
        ['a'] noFlags 64 (List.replicate 64 '#')).1 := by
  refine ⟨?_, by decide, by decide⟩
  intro patternArg flags len buf0 nm e native children rest hpat hrecov
  have hW : search_directory (sysCfg patternArg flags)
      (FSEnt.dir nm (some e) native children) 0
      { sysSt0 len buf0 with path := nm, base := 0 }
      = (0, { sysSt0 len buf0 with path := nm, base := 0 }) := by
    unfold search_directory
    rw [show (16 : Nat) - 0 = 15 + 1 from rfl, sdf_openErr, if_pos hrecov]
  have hroots : search_roots (sysCfg patternArg flags) true
      (FSEnt.dir nm (some e) native children :: rest) (sysSt0 len buf0)
      = search_roots (sysCfg patternArg flags) true rest
          { sysSt0 len buf0 with path := nm } := by
    rw [roots_cons_pat]
    rw [show FSEnt.name (FSEnt.dir nm (some e) native children) = nm from rfl]
    rw [hW]
    rw [if_neg (by simp)]
    rw [if_neg (by simp [sysSt0])]
    rfl
  simp only [sys_search]
  rw [hpat, hroots]
  cases rest with
  | nil =>
    rw [roots_nil, roots_nil]
    simp [sysSt0]
  | cons r2 rs =>
    rw [roots_cons_path_any]

end LinuxSearch
